import Mathlib

/-!
Shallow embedding of the `piecewise` crate (src/src/lib.rs): step functions
(`SmallPiecewise`), their builder (`SmallPiecewiseBuilder` with overlay
semantics) and pointwise multiplication via an ordered merge.

The interval algebra (`intervals_general`) is an external collaborator of the
crate; its operations (`contains`, `intersect`, `complement`,
`right_partial_cmp`) are modelled from the spec's stated contract over a
linearly ordered domain.
-/

namespace Piecewise

/-- Modelled from the spec: the external interval algebra's variant taxonomy —
Empty, Singleton, Closed, Open, left/right half-open bound pairs,
unbounded-left, unbounded-right, fully unbounded. -/
inductive Interval (T : Type) where
  | Empty : Interval T
  | Singleton (a : T) : Interval T
  | Closed (l r : T) : Interval T
  | Open (l r : T) : Interval T
  | LeftHalfOpen (l r : T) : Interval T
  | RightHalfOpen (l r : T) : Interval T
  | UnboundedClosedRight (r : T) : Interval T
  | UnboundedOpenRight (r : T) : Interval T
  | UnboundedClosedLeft (l : T) : Interval T
  | UnboundedOpenLeft (l : T) : Interval T
  | Unbounded : Interval T
  deriving DecidableEq

/-- A lower bound: negative infinity, or a point with a closedness flag. -/
inductive Lower (T : Type) where
  | ninf : Lower T
  | bd (x : T) (closed : Bool) : Lower T
  deriving DecidableEq

/-- An upper bound: positive infinity, or a point with a closedness flag. -/
inductive Upper (T : Type) where
  | pinf : Upper T
  | bd (x : T) (closed : Bool) : Upper T
  deriving DecidableEq

variable {T : Type} [LinearOrder T]

/-- Does a point satisfy a lower-bound constraint? -/
def Lower.memB : Lower T → T → Bool
  | .ninf, _ => true
  | .bd x true, p => decide (x ≤ p)
  | .bd x false, p => decide (x < p)

/-- Does a point satisfy an upper-bound constraint? -/
def Upper.memB : Upper T → T → Bool
  | .pinf, _ => true
  | .bd x true, p => decide (p ≤ x)
  | .bd x false, p => decide (p < x)

/-- Most restrictive (largest) of two lower bounds. -/
def Lower.lmax : Lower T → Lower T → Lower T
  | .ninf, b => b
  | a, .ninf => a
  | .bd x xc, .bd y yc =>
    if x < y then .bd y yc else if y < x then .bd x xc else .bd x (xc && yc)

/-- Most restrictive (smallest) of two upper bounds. -/
def Upper.umin : Upper T → Upper T → Upper T
  | .pinf, b => b
  | a, .pinf => a
  | .bd x xc, .bd y yc =>
    if x < y then .bd x xc else if y < x then .bd y yc else .bd x (xc && yc)

/-- A lower/upper bound pair describes no interior (detected symbolically, as
the interval algebra's intersection does when it returns the Empty variant):
the lower value exceeds the upper, or they agree but are not both closed. -/
def emptyBds : Lower T → Upper T → Bool
  | .ninf, _ => false
  | _, .pinf => false
  | .bd x xc, .bd y yc => decide (y < x) || (decide (x = y) && !(xc && yc))

/-- The bound-pair reading of each non-Empty interval variant. -/
def Interval.toBounds : Interval T → Option (Lower T × Upper T)
  | .Empty => none
  | .Singleton a => some (.bd a true, .bd a true)
  | .Closed l r => some (.bd l true, .bd r true)
  | .Open l r => some (.bd l false, .bd r false)
  | .LeftHalfOpen l r => some (.bd l false, .bd r true)
  | .RightHalfOpen l r => some (.bd l true, .bd r false)
  | .UnboundedClosedRight r => some (.ninf, .bd r true)
  | .UnboundedOpenRight r => some (.ninf, .bd r false)
  | .UnboundedClosedLeft l => some (.bd l true, .pinf)
  | .UnboundedOpenLeft l => some (.bd l false, .pinf)
  | .Unbounded => some (.ninf, .pinf)

/-- Rebuild the normalized interval variant from a bound pair; the Empty
variant exactly when the pair is symbolically empty. -/
def ofBounds : Lower T → Upper T → Interval T := fun lo hi =>
  if emptyBds lo hi then .Empty else
    match lo, hi with
    | .ninf, .pinf => .Unbounded
    | .ninf, .bd y true => .UnboundedClosedRight y
    | .ninf, .bd y false => .UnboundedOpenRight y
    | .bd x true, .pinf => .UnboundedClosedLeft x
    | .bd x false, .pinf => .UnboundedOpenLeft x
    | .bd x xc, .bd y yc =>
      if x = y then .Singleton x
      else match xc, yc with
        | true, true => .Closed x y
        | false, false => .Open x y
        | false, true => .LeftHalfOpen x y
        | true, false => .RightHalfOpen x y

/-- Modelled from the spec: `intersect(other) -> Interval` (result may be the
Empty variant) — set intersection, Empty when no point is common to both in
any order extension. -/
def Interval.intersect (a b : Interval T) : Interval T :=
  match a.toBounds, b.toBounds with
  | some (l1, u1), some (l2, u2) => ofBounds (l1.lmax l2) (u1.umin u2)
  | _, _ => .Empty

/-- Modelled from the spec: `contains(point) -> bool` (the crate calls it with
the singleton interval at the queried point). -/
def Interval.containsB (i : Interval T) (p : T) : Bool :=
  match i.toBounds with
  | none => false
  | some (lo, hi) => lo.memB p && hi.memB p

/-- Modelled from the spec: `complement() -> sequence of 0-2 disjoint
Intervals` covering everything the interval does not cover (left piece first,
then right piece). -/
def Interval.complement (i : Interval T) : List (Interval T) :=
  match i.toBounds with
  | none => [.Unbounded]
  | some (lo, hi) =>
    (match lo with
      | .ninf => []
      | .bd x true => [.UnboundedOpenRight x]
      | .bd x false => [.UnboundedClosedRight x]) ++
    (match hi with
      | .pinf => []
      | .bd y true => [.UnboundedOpenLeft y]
      | .bd y false => [.UnboundedClosedLeft y])

/-- Modelled from the spec: the ordering comparator on right bounds used as
the merge key (`right_partial_cmp`); incomparable (Empty) operands yield
none, for which the caller substitutes a fixed fallback. -/
def Upper.cmp : Upper T → Upper T → Ordering
  | .pinf, .pinf => .eq
  | .pinf, .bd _ _ => .gt
  | .bd _ _, .pinf => .lt
  | .bd x xc, .bd y yc =>
    if x < y then .lt else if y < x then .gt
    else if xc = yc then .eq else if yc then .lt else .gt

/-- Modelled from the spec: compare two intervals by right bound, none when an
Empty interval makes them incomparable. -/
def Interval.rightPartialCmp (a b : Interval T) : Option Ordering :=
  match a.toBounds, b.toBounds with
  | some (_, u1), some (_, u2) => some (u1.cmp u2)
  | _, _ => none

/-- Well-formedness as enforced by the interval algebra's own constructors
(`BoundPair` rejects inverted or degenerate bound pairs): two-bounded
variants require strictly increasing bounds. -/
def Interval.WF : Interval T → Prop
  | .Closed l r => l < r
  | .Open l r => l < r
  | .LeftHalfOpen l r => l < r
  | .RightHalfOpen l r => l < r
  | _ => True

/-- Segment: `ValueOverInterval` pairs one interval with one value
(src/src/lib.rs, `pub struct ValueOverInterval`). -/
structure ValueOverInterval (T U : Type) where
  interval : Interval T
  value : U
  deriving DecidableEq

/-- `impl Mul<V> for ValueOverInterval<T, U>`: scaling a segment produces a
new segment with the same interval and the scaled value. -/
def ValueOverInterval.mulV {U V : Type} [HMul U V U]
    (s : ValueOverInterval T U) (rhs : V) : ValueOverInterval T U :=
  { interval := s.interval, value := s.value * rhs }

/-- Step function: `SmallPiecewise` stores an ordered sequence of segments
(the SmallVec is modelled as a list). -/
structure SmallPiecewise (T U : Type) where
  values_over_intervals : List (ValueOverInterval T U)
  deriving DecidableEq

/-- `SmallPiecewise::value_at`: linear scan, value of the first segment whose
interval contains the singleton at the queried point, else None. -/
def SmallPiecewise.value_at {U : Type} (s : SmallPiecewise T U) (at_ : T) :
    Option U :=
  (s.values_over_intervals.find? (fun voi => voi.interval.containsB at_)).map
    (fun voi => voi.value)

/-- `impl FromIterator<ValueOverInterval<T, U>> for SmallPiecewise`: collect
the caller's sequence as given. -/
def SmallPiecewise.ofList {U : Type} (l : List (ValueOverInterval T U)) :
    SmallPiecewise T U :=
  { values_over_intervals := l }

/-- Builder: `SmallPiecewiseBuilder` holds the staged segment list. -/
structure SmallPiecewiseBuilder (T U : Type) where
  values_over_intervals : List (ValueOverInterval T U)

/-- `SmallPiecewiseBuilder::new`: the empty builder. -/
def SmallPiecewiseBuilder.new (T U : Type) : SmallPiecewiseBuilder T U :=
  { values_over_intervals := [] }

/-- `SmallPiecewiseBuilder::build`: transfer the segment list unchanged. -/
def SmallPiecewiseBuilder.build {U : Type} (b : SmallPiecewiseBuilder T U) :
    SmallPiecewise T U :=
  { values_over_intervals := b.values_over_intervals }

/-- `SmallPiecewiseBuilder::add_overlay`: trim each existing segment to its
intersections with the complement pieces of the new segment's interval
(outer loop over existing segments, inner loop over complement pieces,
discarding Empty intersections), then append the new segment. -/
def SmallPiecewiseBuilder.add_overlay {U : Type} (self : SmallPiecewiseBuilder T U)
    (element : ValueOverInterval T U) : SmallPiecewiseBuilder T U :=
  let new_voi := self.values_over_intervals.flatMap (fun self_voi =>
    element.interval.complement.filterMap (fun complement_interval =>
      match self_voi.interval.intersect complement_interval with
      | .Empty => none
      | inter => some { interval := inter, value := self_voi.value }))
  { values_over_intervals := new_voi ++ [element] }

/-- itertools `EitherOrBoth`: one merge step yields an element from the left
iterator, from the right one, or from both at once. -/
inductive EitherOrBoth (A B : Type) where
  | left (a : A) : EitherOrBoth A B
  | right (b : B) : EitherOrBoth A B
  | both (a : A) (b : B) : EitherOrBoth A B

/-- Inner loop of the ordered merge: consume right elements while they
compare below the fixed left element `a`; `k` resumes the merge of the
remaining left elements against whatever right elements are left over. -/
def mergeInner {A B : Type} (cmp : A → B → Ordering) (a : A)
    (k : List B → List (EitherOrBoth A B)) : List B → List (EitherOrBoth A B)
  | [] => .left a :: k []
  | b :: bs =>
    match cmp a b with
    | .lt => .left a :: k (b :: bs)
    | .gt => .right b :: mergeInner cmp a k bs
    | .eq => .both a b :: k bs

/-- itertools `merge_join_by`: ordered merge of two sequences under a
comparator; Less emits the left element, Greater the right one, Equal both. -/
def mergeJoinBy {A B : Type} (cmp : A → B → Ordering) :
    List A → List B → List (EitherOrBoth A B)
  | [], bs => bs.map .right
  | a :: as_, bs => mergeInner cmp a (mergeJoinBy cmp as_) bs

/-- The tie-break `match` of the Both branch (src/src/lib.rs lines 332-339):
keep the right-induced candidate unless it is missing or has an Empty
interval, in which case fall back to the left-induced candidate. -/
def bothFirst {W : Type} (ri li : Option (ValueOverInterval T W)) :
    Option (ValueOverInterval T W) :=
  match ri with
  | none => li
  | some { interval := .Empty, value := _ } => li
  | x => x

/-- One step of the stateful `flat_map` closure inside
`impl Mul for SmallPiecewise` (src/src/lib.rs lines 288-347): given the
pending pair `prior_intervals`, emit the step's candidate list (None entries
are dropped by the final filter) and the updated pending pair. -/
def mulStep {U V W : Type} [HMul U V W]
    (prior : Option (ValueOverInterval T U) × Option (ValueOverInterval T V)) :
    EitherOrBoth (ValueOverInterval T U) (ValueOverInterval T V) →
    List (Option (ValueOverInterval T W)) ×
      (Option (ValueOverInterval T U) × Option (ValueOverInterval T V))
  | .left new_left =>
    let retval := match prior.2 with
      | some right =>
        [some { interval := new_left.interval.intersect right.interval,
                value := new_left.value * right.value }, none]
      | none => [none, none]
    (retval, (some new_left, prior.2))
  | .right new_right =>
    let retval := match prior.1 with
      | some left =>
        [some { interval := left.interval.intersect new_right.interval,
                value := left.value * new_right.value }, none]
      | none => [none, none]
    (retval, (prior.1, some new_right))
  | .both new_left new_right =>
    let new_right_induced := prior.1.map (fun left =>
      ({ interval := left.interval.intersect new_right.interval,
         value := left.value * new_right.value } : ValueOverInterval T W))
    let new_left_induced := prior.2.map (fun right =>
      ({ interval := new_left.interval.intersect right.interval,
         value := new_left.value * right.value } : ValueOverInterval T W))
    ([bothFirst new_right_induced new_left_induced,
      some { interval := new_left.interval.intersect new_right.interval,
             value := new_left.value * new_right.value }],
     (some new_left, some new_right))

/-- Thread the pending state through the whole merge sequence, concatenating
each step's emissions (the stateful `flat_map`). -/
def mulAux {U V W : Type} [HMul U V W]
    (prior : Option (ValueOverInterval T U) × Option (ValueOverInterval T V)) :
    List (EitherOrBoth (ValueOverInterval T U) (ValueOverInterval T V)) →
    List (Option (ValueOverInterval T W))
  | [] => []
  | e :: rest =>
    let step := mulStep prior e
    step.1 ++ mulAux step.2 rest

/-- `impl Mul<SmallPiecewise<T, V>> for SmallPiecewise<T, U>`: merge the two
segment lists by right-bound order (incomparable pairs fall back to Less),
run the stateful emission, drop the Nones, collect. -/
def SmallPiecewise.mul {U V W : Type} [HMul U V W]
    (self : SmallPiecewise T U) (rhs : SmallPiecewise T V) :
    SmallPiecewise T W :=
  let merged := mergeJoinBy (fun a b =>
    match a.interval.rightPartialCmp b.interval with
    | some cmp => cmp
    | none => .lt) self.values_over_intervals rhs.values_over_intervals
  { values_over_intervals := (mulAux (none, none) merged).filterMap id }

/-! ### Bound order: `le a b` says constraint `b` is at least as restrictive -/

/-- `a.le b`: the lower-bound constraint `b` implies `a`. -/
def Lower.le : Lower T → Lower T → Bool
  | .ninf, _ => true
  | .bd _ _, .ninf => false
  | .bd x xc, .bd y yc => decide (x < y) || (decide (x = y) && (xc || !yc))

/-- `a.le b`: the upper-bound constraint `a` implies `b`. -/
def Upper.le : Upper T → Upper T → Bool
  | _, .pinf => true
  | .pinf, .bd _ _ => false
  | .bd x xc, .bd y yc => decide (x < y) || (decide (x = y) && (!xc || yc))

theorem Lower.le_bd_iff_lo {x y : T} {xc yc : Bool} :
    (Lower.bd x xc).le (Lower.bd y yc) = true ↔
      x < y ∨ (x = y ∧ (xc = true ∨ yc = false)) := by
  simp [Lower.le]

theorem Upper.le_bd_iff_up {x y : T} {xc yc : Bool} :
    (Upper.bd x xc).le (Upper.bd y yc) = true ↔
      x < y ∨ (x = y ∧ (xc = false ∨ yc = true)) := by
  simp [Upper.le]

theorem Lower.le_refl_lo (a : Lower T) : a.le a = true := by
  rcases a with _ | ⟨x, xc⟩
  · rfl
  · rw [Lower.le_bd_iff_lo]
    rcases xc with _ | _ <;> simp

theorem Upper.le_refl_up (a : Upper T) : a.le a = true := by
  rcases a with _ | ⟨x, xc⟩
  · rfl
  · rw [Upper.le_bd_iff_up]
    rcases xc with _ | _ <;> simp

theorem Lower.le_trans_lo {a b c : Lower T} (h1 : a.le b = true)
    (h2 : b.le c = true) : a.le c = true := by
  rcases a with _ | ⟨x, xc⟩
  · rfl
  rcases b with _ | ⟨y, yc⟩
  · exact absurd h1 (by simp [Lower.le])
  rcases c with _ | ⟨z, zc⟩
  · exact absurd h2 (by simp [Lower.le])
  rw [Lower.le_bd_iff_lo] at h1 h2 ⊢
  rcases h1 with h1 | ⟨rfl, h1⟩
  · rcases h2 with h2 | ⟨rfl, h2⟩
    · exact Or.inl (h1.trans h2)
    · exact Or.inl h1
  · rcases h2 with h2 | ⟨rfl, h2⟩
    · exact Or.inl h2
    · refine Or.inr ⟨rfl, ?_⟩
      rcases h1 with h1 | h1
      · exact Or.inl h1
      · rcases h2 with h2 | h2
        · exact absurd h2 (by simp [h1])
        · exact Or.inr h2

theorem Upper.le_trans_up {a b c : Upper T} (h1 : a.le b = true)
    (h2 : b.le c = true) : a.le c = true := by
  rcases c with _ | ⟨z, zc⟩
  · rcases a with _ | ⟨x, xc⟩ <;> rfl
  rcases b with _ | ⟨y, yc⟩
  · exact absurd h2 (by simp [Upper.le])
  rcases a with _ | ⟨x, xc⟩
  · exact absurd h1 (by simp [Upper.le])
  rw [Upper.le_bd_iff_up] at h1 h2 ⊢
  rcases h1 with h1 | ⟨rfl, h1⟩
  · rcases h2 with h2 | ⟨rfl, h2⟩
    · exact Or.inl (h1.trans h2)
    · exact Or.inl h1
  · rcases h2 with h2 | ⟨rfl, h2⟩
    · exact Or.inl h2
    · refine Or.inr ⟨rfl, ?_⟩
      rcases h1 with h1 | h1
      · exact Or.inl h1
      · rcases h2 with h2 | h2
        · exact absurd h1 (by simp [h2])
        · exact Or.inr h2

theorem Lower.lmax_choice (a b : Lower T) : a.lmax b = a ∨ a.lmax b = b := by
  rcases a with _ | ⟨x, xc⟩
  · rcases b with _ | ⟨y, yc⟩ <;> exact Or.inr rfl
  rcases b with _ | ⟨y, yc⟩
  · exact Or.inl rfl
  simp only [Lower.lmax]
  rcases lt_trichotomy x y with h | h | h
  · rw [if_pos h]; exact Or.inr rfl
  · subst h
    rw [if_neg (lt_irrefl x), if_neg (lt_irrefl x)]
    rcases xc with _ | _ <;> rcases yc with _ | _ <;> simp
  · rw [if_neg (not_lt_of_gt h), if_pos h]; exact Or.inl rfl

theorem Upper.umin_choice (a b : Upper T) : a.umin b = a ∨ a.umin b = b := by
  rcases a with _ | ⟨x, xc⟩
  · rcases b with _ | ⟨y, yc⟩ <;> exact Or.inr rfl
  rcases b with _ | ⟨y, yc⟩
  · exact Or.inl rfl
  simp only [Upper.umin]
  rcases lt_trichotomy x y with h | h | h
  · rw [if_pos h]; exact Or.inl rfl
  · subst h
    rw [if_neg (lt_irrefl x), if_neg (lt_irrefl x)]
    rcases xc with _ | _ <;> rcases yc with _ | _ <;> simp
  · rw [if_neg (not_lt_of_gt h), if_pos h]; exact Or.inr rfl

theorem Lower.le_lmax_left (a b : Lower T) : a.le (a.lmax b) = true := by
  rcases a with _ | ⟨x, xc⟩
  · rfl
  rcases b with _ | ⟨y, yc⟩
  · exact Lower.le_refl_lo _
  simp only [Lower.lmax]
  rcases lt_trichotomy x y with h | h | h
  · rw [if_pos h, Lower.le_bd_iff_lo]; exact Or.inl h
  · subst h
    rw [if_neg (lt_irrefl x), if_neg (lt_irrefl x), Lower.le_bd_iff_lo]
    rcases xc with _ | _ <;> rcases yc with _ | _ <;> simp
  · rw [if_neg (not_lt_of_gt h), if_pos h]; exact Lower.le_refl_lo _

theorem Lower.le_lmax_right (a b : Lower T) : b.le (a.lmax b) = true := by
  rcases a with _ | ⟨x, xc⟩
  · rcases b with _ | ⟨y, yc⟩ <;> exact Lower.le_refl_lo _
  rcases b with _ | ⟨y, yc⟩
  · rfl
  simp only [Lower.lmax]
  rcases lt_trichotomy x y with h | h | h
  · rw [if_pos h]; exact Lower.le_refl_lo _
  · subst h
    rw [if_neg (lt_irrefl x), if_neg (lt_irrefl x), Lower.le_bd_iff_lo]
    rcases xc with _ | _ <;> rcases yc with _ | _ <;> simp
  · rw [if_neg (not_lt_of_gt h), if_pos h, Lower.le_bd_iff_lo]; exact Or.inl h

theorem Upper.umin_le_left (a b : Upper T) : (a.umin b).le a = true := by
  rcases a with _ | ⟨x, xc⟩
  · rcases b with _ | ⟨y, yc⟩ <;> rfl
  rcases b with _ | ⟨y, yc⟩
  · exact Upper.le_refl_up _
  simp only [Upper.umin]
  rcases lt_trichotomy x y with h | h | h
  · rw [if_pos h]; exact Upper.le_refl_up _
  · subst h
    rw [if_neg (lt_irrefl x), if_neg (lt_irrefl x), Upper.le_bd_iff_up]
    rcases xc with _ | _ <;> rcases yc with _ | _ <;> simp
  · rw [if_neg (not_lt_of_gt h), if_pos h, Upper.le_bd_iff_up]; exact Or.inl h

theorem Upper.umin_le_right (a b : Upper T) : (a.umin b).le b = true := by
  rcases b with _ | ⟨y, yc⟩
  · rcases a with _ | ⟨x, xc⟩ <;> rfl
  rcases a with _ | ⟨x, xc⟩
  · exact Upper.le_refl_up _
  simp only [Upper.umin]
  rcases lt_trichotomy x y with h | h | h
  · rw [if_pos h, Upper.le_bd_iff_up]; exact Or.inl h
  · subst h
    rw [if_neg (lt_irrefl x), if_neg (lt_irrefl x), Upper.le_bd_iff_up]
    rcases xc with _ | _ <;> rcases yc with _ | _ <;> simp
  · rw [if_neg (not_lt_of_gt h), if_pos h]; exact Upper.le_refl_up _

theorem Lower.lmax_le {a b c : Lower T} (h1 : a.le c = true)
    (h2 : b.le c = true) : (a.lmax b).le c = true := by
  rcases Lower.lmax_choice a b with h | h <;> rw [h] <;> assumption

theorem Upper.le_umin {a b c : Upper T} (h1 : c.le a = true)
    (h2 : c.le b = true) : c.le (a.umin b) = true := by
  rcases Upper.umin_choice a b with h | h <;> rw [h] <;> assumption

theorem emptyBds_bd_iff {x y : T} {xc yc : Bool} :
    emptyBds (Lower.bd x xc) (Upper.bd y yc) = true ↔
      y < x ∨ (x = y ∧ ¬(xc = true ∧ yc = true)) := by
  rcases xc with _ | _ <;> rcases yc with _ | _ <;> simp [emptyBds]

/-- A symbolically empty bound pair stays empty when the lower bound grows
and the upper bound shrinks. -/
theorem emptyBds_mono {lo lo' : Lower T} {hi hi' : Upper T}
    (hl : lo.le lo' = true) (hu : hi'.le hi = true)
    (h : emptyBds lo hi = true) : emptyBds lo' hi' = true := by
  rcases lo with _ | ⟨x, xc⟩
  · exact absurd h (by simp [emptyBds])
  rcases hi with _ | ⟨y, yc⟩
  · exact absurd h (by simp [emptyBds])
  rcases lo' with _ | ⟨x', xc'⟩
  · exact absurd hl (by simp [Lower.le])
  rcases hi' with _ | ⟨y', yc'⟩
  · exact absurd hu (by simp [Upper.le])
  rw [Lower.le_bd_iff_lo] at hl
  rw [Upper.le_bd_iff_up] at hu
  rw [emptyBds_bd_iff] at h ⊢
  rcases h with h | ⟨rfl, h⟩
  · rcases hl with hl | ⟨rfl, _⟩ <;> rcases hu with hu | ⟨rfl, _⟩
    · exact Or.inl ((hu.trans h).trans hl)
    · exact Or.inl (h.trans hl)
    · exact Or.inl (hu.trans h)
    · exact Or.inl h
  · rcases hl with hl | ⟨rfl, hl⟩
    · rcases hu with hu | ⟨rfl, _⟩
      · exact Or.inl (hu.trans hl)
      · exact Or.inl hl
    · rcases hu with hu | ⟨rfl, hu⟩
      · exact Or.inl hu
      · refine Or.inr ⟨rfl, fun hcc => h ?_⟩
        rcases hl with hl | hl
        · rcases hu with hu | hu
          · rw [hu] at hcc; exact absurd hcc.2 (by simp)
          · exact ⟨hl, hu⟩
        · rw [hl] at hcc; exact absurd hcc.1 (by simp)

/-! ### Semantic layer: pointwise membership -/

theorem Lower.memB_mono_lo {a b : Lower T} {p : T} (h : a.le b = true)
    (hm : b.memB p = true) : a.memB p = true := by
  rcases a with _ | ⟨x, xc⟩
  · rfl
  rcases b with _ | ⟨y, yc⟩
  · exact absurd h (by simp [Lower.le])
  rw [Lower.le_bd_iff_lo] at h
  rcases xc with _ | _ <;> rcases yc with _ | _ <;>
    simp only [Lower.memB, decide_eq_true_eq] at hm ⊢
  · rcases h with h | ⟨rfl, _⟩
    · exact h.trans hm
    · exact hm
  · rcases h with h | ⟨rfl, h⟩
    · exact h.trans_le hm
    · simp at h
  · rcases h with h | ⟨rfl, _⟩
    · exact (h.trans hm).le
    · exact hm.le
  · rcases h with h | ⟨rfl, _⟩
    · exact h.le.trans hm
    · exact hm

theorem Upper.memB_mono_up {a b : Upper T} {p : T} (h : a.le b = true)
    (hm : a.memB p = true) : b.memB p = true := by
  rcases b with _ | ⟨y, yc⟩
  · rfl
  rcases a with _ | ⟨x, xc⟩
  · exact absurd h (by simp [Upper.le])
  rw [Upper.le_bd_iff_up] at h
  rcases xc with _ | _ <;> rcases yc with _ | _ <;>
    simp only [Upper.memB, decide_eq_true_eq] at hm ⊢
  · rcases h with h | ⟨rfl, _⟩
    · exact hm.trans h
    · exact hm
  · rcases h with h | ⟨rfl, _⟩
    · exact (hm.trans h).le
    · exact hm.le
  · rcases h with h | ⟨rfl, h⟩
    · exact hm.trans_lt h
    · simp at h
  · rcases h with h | ⟨rfl, _⟩
    · exact hm.trans h.le
    · exact hm

theorem Lower.memB_lmax {a b : Lower T} {p : T} :
    (a.lmax b).memB p = true ↔ a.memB p = true ∧ b.memB p = true := by
  constructor
  · intro h
    exact ⟨Lower.memB_mono_lo (Lower.le_lmax_left a b) h,
      Lower.memB_mono_lo (Lower.le_lmax_right a b) h⟩
  · rintro ⟨h1, h2⟩
    rcases Lower.lmax_choice a b with h | h <;> rw [h] <;> assumption

theorem Upper.memB_umin {a b : Upper T} {p : T} :
    (a.umin b).memB p = true ↔ a.memB p = true ∧ b.memB p = true := by
  constructor
  · intro h
    exact ⟨Upper.memB_mono_up (Upper.umin_le_left a b) h,
      Upper.memB_mono_up (Upper.umin_le_right a b) h⟩
  · rintro ⟨h1, h2⟩
    rcases Upper.umin_choice a b with h | h <;> rw [h] <;> assumption

/-- No point satisfies a symbolically empty bound pair. -/
theorem emptyBds_not_mem {lo : Lower T} {hi : Upper T} {p : T}
    (h : emptyBds lo hi = true) (h1 : lo.memB p = true)
    (h2 : hi.memB p = true) : False := by
  rcases lo with _ | ⟨x, xc⟩
  · exact absurd h (by simp [emptyBds])
  rcases hi with _ | ⟨y, yc⟩
  · exact absurd h (by simp [emptyBds])
  rw [emptyBds_bd_iff] at h
  rcases xc with _ | _ <;> rcases yc with _ | _ <;>
    simp only [Lower.memB, Upper.memB, decide_eq_true_eq] at h1 h2
  · rcases h with h | ⟨rfl, _⟩
    · exact absurd (h1.trans h2).le (not_le_of_gt h)
    · exact lt_irrefl _ (h1.trans h2)
  · rcases h with h | ⟨rfl, _⟩
    · exact absurd (h1.le.trans h2) (not_le_of_gt h)
    · exact lt_irrefl _ (h1.trans_le h2)
  · rcases h with h | ⟨rfl, _⟩
    · exact absurd (h1.trans h2.le) (not_le_of_gt h)
    · exact lt_irrefl _ (h2.trans_le h1)
  · rcases h with h | ⟨rfl, hcc⟩
    · exact absurd (h1.trans h2) (not_le_of_gt h)
    · exact hcc ⟨rfl, rfl⟩

theorem ofBounds_eq_empty_of {lo : Lower T} {hi : Upper T}
    (h : emptyBds lo hi = true) : ofBounds lo hi = .Empty := by
  unfold ofBounds
  rw [if_pos h]

theorem toBounds_ofBounds {lo : Lower T} {hi : Upper T}
    (h : emptyBds lo hi = false) : (ofBounds lo hi).toBounds = some (lo, hi) := by
  unfold ofBounds
  rw [if_neg (by simp [h])]
  rcases lo with _ | ⟨x, xc⟩ <;> rcases hi with _ | ⟨y, yc⟩
  · rfl
  · rcases yc with _ | _ <;> rfl
  · rcases xc with _ | _ <;> rfl
  · rcases xc with _ | _ <;> rcases yc with _ | _ <;> by_cases hxy : x = y
    · exact absurd h (by subst hxy; simp [emptyBds])
    · simp only [if_neg hxy]; rfl
    · exact absurd h (by subst hxy; simp [emptyBds])
    · simp only [if_neg hxy]; rfl
    · exact absurd h (by subst hxy; simp [emptyBds])
    · simp only [if_neg hxy]; rfl
    · subst hxy; simp only [if_pos]; rfl
    · simp only [if_neg hxy]; rfl

theorem ofBounds_ne_empty {lo : Lower T} {hi : Upper T}
    (h : emptyBds lo hi = false) : ofBounds lo hi ≠ .Empty := by
  intro he
  have := toBounds_ofBounds h
  rw [he] at this
  exact absurd this (by simp [Interval.toBounds])

theorem ofBounds_eq_empty_iff {lo : Lower T} {hi : Upper T} :
    ofBounds lo hi = .Empty ↔ emptyBds lo hi = true := by
  constructor
  · intro he
    by_contra hne
    exact ofBounds_ne_empty (Bool.eq_false_iff.mpr hne) he
  · exact ofBounds_eq_empty_of

theorem Interval.containsB_eq {i : Interval T} {lo : Lower T} {hi : Upper T}
    {p : T} (h : i.toBounds = some (lo, hi)) :
    i.containsB p = (lo.memB p && hi.memB p) := by
  unfold Interval.containsB
  rw [h]

theorem Interval.containsB_of_toBounds_none {i : Interval T} {p : T}
    (h : i.toBounds = none) : i.containsB p = false := by
  unfold Interval.containsB
  rw [h]

theorem containsB_ofBounds {lo : Lower T} {hi : Upper T} {p : T} :
    (ofBounds lo hi).containsB p = true ↔
      lo.memB p = true ∧ hi.memB p = true := by
  by_cases h : emptyBds lo hi = true
  · rw [ofBounds_eq_empty_of h]
    constructor
    · intro hc
      exact absurd hc (by simp [Interval.containsB, Interval.toBounds])
    · rintro ⟨h1, h2⟩
      exact (emptyBds_not_mem h h1 h2).elim
  · rw [Interval.containsB_eq (toBounds_ofBounds (Bool.eq_false_iff.mpr h))]
    simp [Bool.and_eq_true]

/-- Set-level correctness of intersection: a point is in the intersection
of two intervals exactly when it is in both. -/
theorem Interval.containsB_intersect {a b : Interval T} {p : T} :
    (a.intersect b).containsB p = true ↔
      a.containsB p = true ∧ b.containsB p = true := by
  unfold Interval.intersect
  rcases ha : a.toBounds with _ | ⟨la, ua⟩
  · simp [Interval.containsB_of_toBounds_none, ha,
      Interval.containsB_of_toBounds_none (show (Interval.Empty : Interval T).toBounds = none from rfl)]
  rcases hb : b.toBounds with _ | ⟨lb, ub⟩
  · simp [Interval.containsB_of_toBounds_none, hb,
      Interval.containsB_of_toBounds_none (show (Interval.Empty : Interval T).toBounds = none from rfl)]
  rw [containsB_ofBounds, Interval.containsB_eq ha, Interval.containsB_eq hb]
  simp only [Lower.memB_lmax, Upper.memB_umin, Bool.and_eq_true]
  tauto

theorem Interval.ne_empty_of_containsB {i : Interval T} {p : T}
    (h : i.containsB p = true) : i ≠ .Empty := by
  intro he
  rw [he] at h
  exact absurd h (by simp [Interval.containsB, Interval.toBounds])

/-! ### Complement correctness -/

theorem Lower.dual_memB_lo {x : T} {xc : Bool} {p : T} :
    (Upper.bd x (!xc)).memB p = true ↔ (Lower.bd x xc).memB p = false := by
  rcases xc with _ | _ <;> simp [Upper.memB, Lower.memB, not_le, not_lt]

theorem Upper.dual_memB_up {y : T} {yc : Bool} {p : T} :
    (Lower.bd y (!yc)).memB p = true ↔ (Upper.bd y yc).memB p = false := by
  rcases yc with _ | _ <;> simp [Upper.memB, Lower.memB, not_le, not_lt]

/-- Structure of the complement pieces: each is a left piece dual to the
lower bound or a right piece dual to the upper bound. -/
theorem mem_complement {i c : Interval T} (hc : c ∈ i.complement) :
    (i.toBounds = none ∧ c = .Unbounded) ∨
    (∃ lo hi, i.toBounds = some (lo, hi) ∧
      ((∃ x xc, lo = .bd x xc ∧ c.toBounds = some (.ninf, .bd x (!xc))) ∨
       (∃ y yc, hi = .bd y yc ∧ c.toBounds = some (.bd y (!yc), .pinf)))) := by
  unfold Interval.complement at hc
  rcases hi : i.toBounds with _ | ⟨lo, hi'⟩ <;> rw [hi] at hc
  · simp only [List.mem_singleton] at hc
    exact Or.inl ⟨rfl, hc⟩
  · refine Or.inr ⟨lo, hi', rfl, ?_⟩
    simp only [List.mem_append] at hc
    rcases hc with h | h
    · rcases lo with _ | ⟨x, xc⟩
      · simp at h
      · rcases xc with _ | _ <;> simp only [List.mem_singleton] at h <;> subst h
        · exact Or.inl ⟨x, false, rfl, rfl⟩
        · exact Or.inl ⟨x, true, rfl, rfl⟩
    · rcases hi' with _ | ⟨y, yc⟩
      · simp at h
      · rcases yc with _ | _ <;> simp only [List.mem_singleton] at h <;> subst h
        · exact Or.inr ⟨y, false, rfl, rfl⟩
        · exact Or.inr ⟨y, true, rfl, rfl⟩

/-- A complement piece contains no point of the original interval. -/
theorem complement_not_containsB {i c : Interval T} {p : T}
    (hc : c ∈ i.complement) (hp : c.containsB p = true) :
    i.containsB p = false := by
  rcases mem_complement hc with ⟨hn, rfl⟩ | ⟨lo, hi', hsome, hcase⟩
  · exact Interval.containsB_of_toBounds_none hn
  · rw [Interval.containsB_eq hsome]
    rcases hcase with ⟨x, xc, rfl, hct⟩ | ⟨y, yc, rfl, hct⟩
    · rw [Interval.containsB_eq hct] at hp
      simp only [Bool.and_eq_true] at hp
      have hl := Lower.dual_memB_lo.mp hp.2
      simp [hl]
    · rw [Interval.containsB_eq hct] at hp
      simp only [Bool.and_eq_true] at hp
      have hu := Upper.dual_memB_up.mp hp.1
      simp [hu]

/-- The complement pieces cover every point outside the interval. -/
theorem complement_containsB_of_not {i : Interval T} {p : T}
    (hp : i.containsB p = false) :
    ∃ c ∈ i.complement, c.containsB p = true := by
  unfold Interval.complement
  rcases hi : i.toBounds with _ | ⟨lo, hi'⟩
  · exact ⟨.Unbounded, by simp, rfl⟩
  rw [Interval.containsB_eq hi] at hp
  rcases hl : lo.memB p with _ | _
  · rcases lo with _ | ⟨x, xc⟩
    · exact absurd hl (by simp [Lower.memB])
    rcases xc with _ | _
    · refine ⟨.UnboundedClosedRight x, by simp, ?_⟩
      rw [Interval.containsB_eq
        (show Interval.toBounds (.UnboundedClosedRight x) =
          some (.ninf, .bd x true) from rfl)]
      simp only [Bool.and_eq_true]
      exact ⟨rfl, Lower.dual_memB_lo.mpr hl⟩
    · refine ⟨.UnboundedOpenRight x, by simp, ?_⟩
      rw [Interval.containsB_eq
        (show Interval.toBounds (.UnboundedOpenRight x) =
          some (.ninf, .bd x false) from rfl)]
      simp only [Bool.and_eq_true]
      exact ⟨rfl, Lower.dual_memB_lo.mpr hl⟩
  · have hh : hi'.memB p = false := by
      rw [hl] at hp
      simpa using hp
    rcases hi' with _ | ⟨y, yc⟩
    · exact absurd hh (by simp [Upper.memB])
    rcases yc with _ | _
    · refine ⟨.UnboundedClosedLeft y, by simp, ?_⟩
      rw [Interval.containsB_eq
        (show Interval.toBounds (.UnboundedClosedLeft y) =
          some (.bd y true, .pinf) from rfl)]
      simp only [Bool.and_eq_true]
      exact ⟨Upper.dual_memB_up.mpr hh, rfl⟩
    · refine ⟨.UnboundedOpenLeft y, by simp, ?_⟩
      rw [Interval.containsB_eq
        (show Interval.toBounds (.UnboundedOpenLeft y) =
          some (.bd y false, .pinf) from rfl)]
      simp only [Bool.and_eq_true]
      exact ⟨Upper.dual_memB_up.mpr hh, rfl⟩

/-! ### value_at through overlay -/

theorem find?_append_of_none {A : Type} {p : A → Bool} {l1 l2 : List A}
    (h : l1.find? p = none) : (l1 ++ l2).find? p = l2.find? p := by
  induction l1 with
  | nil => rfl
  | cons a l ih =>
    rcases hpa : p a with _ | _
    · rw [List.find?_cons_of_neg _ (by simp [hpa])] at h
      rw [List.cons_append, List.find?_cons_of_neg _ (by simp [hpa])]
      exact ih h
    · rw [List.find?_cons_of_pos _ hpa] at h
      exact absurd h (by simp)

theorem find?_append_of_some {A : Type} {p : A → Bool} {l1 l2 : List A} {a : A}
    (h : l1.find? p = some a) : (l1 ++ l2).find? p = some a := by
  induction l1 with
  | nil => exact absurd h (by simp)
  | cons b l ih =>
    rcases hpb : p b with _ | _
    · rw [List.find?_cons_of_neg _ (by simp [hpb])] at h
      rw [List.cons_append, List.find?_cons_of_neg _ (by simp [hpb])]
      exact ih h
    · rw [List.find?_cons_of_pos _ hpb] at h
      rw [List.cons_append, List.find?_cons_of_pos _ hpb]
      exact h

/-- The trimming loop of `add_overlay` (the `iproduct!` over existing
segments and complement pieces, keeping non-Empty intersections). -/
def trimSegs {U : Type} (L : List (ValueOverInterval T U))
    (element : ValueOverInterval T U) : List (ValueOverInterval T U) :=
  L.flatMap (fun self_voi =>
    element.interval.complement.filterMap (fun complement_interval =>
      match self_voi.interval.intersect complement_interval with
      | .Empty => none
      | inter => some { interval := inter, value := self_voi.value }))

theorem add_overlay_eq_trimSegs {U : Type} (b : SmallPiecewiseBuilder T U)
    (element : ValueOverInterval T U) :
    (b.add_overlay element).values_over_intervals =
      trimSegs b.values_over_intervals element ++ [element] := rfl

theorem trim_piece_eq {U : Type} (e : ValueOverInterval T U) (c : Interval T) :
    (match e.interval.intersect c with
     | .Empty => none
     | inter => some ({ interval := inter, value := e.value } : ValueOverInterval T U)) =
    if e.interval.intersect c = .Empty then none
    else some { interval := e.interval.intersect c, value := e.value } := by
  rcases h : e.interval.intersect c <;> simp [h]

theorem mem_trimSegs {U : Type} {L : List (ValueOverInterval T U)}
    {element x : ValueOverInterval T U} :
    x ∈ trimSegs L element ↔
      ∃ e ∈ L, ∃ c ∈ element.interval.complement,
        e.interval.intersect c ≠ .Empty ∧
        x = { interval := e.interval.intersect c, value := e.value } := by
  unfold trimSegs
  simp only [List.mem_flatMap, List.mem_filterMap, trim_piece_eq]
  constructor
  · rintro ⟨e, he, c, hc, hx⟩
    by_cases hne : e.interval.intersect c = .Empty
    · rw [if_pos hne] at hx
      exact absurd hx (by simp)
    · rw [if_neg hne] at hx
      exact ⟨e, he, c, hc, hne, (Option.some_injective _ hx).symm⟩
  · rintro ⟨e, he, c, hc, hne, rfl⟩
    exact ⟨e, he, c, hc, by rw [if_neg hne]⟩

theorem trimSegs_cons {U : Type} (e : ValueOverInterval T U)
    (L : List (ValueOverInterval T U)) (element : ValueOverInterval T U) :
    trimSegs (e :: L) element = trimSegs [e] element ++ trimSegs L element := by
  unfold trimSegs
  simp

theorem find?_contains_cons_pos {U : Type} {e : ValueOverInterval T U}
    {L : List (ValueOverInterval T U)} {p : T}
    (h : e.interval.containsB p = true) :
    (e :: L).find? (fun voi => voi.interval.containsB p) = some e :=
  List.find?_cons_of_pos _ h

theorem find?_contains_cons_neg {U : Type} {e : ValueOverInterval T U}
    {L : List (ValueOverInterval T U)} {p : T}
    (h : e.interval.containsB p = false) :
    (e :: L).find? (fun voi => voi.interval.containsB p) =
      L.find? (fun voi => voi.interval.containsB p) :=
  List.find?_cons_of_neg _ (by simp [h])

/-- Newest wins: right after overlaying `element`, every point of its
interval evaluates to its value. -/
theorem value_at_overlay_mem {U : Type} {b : SmallPiecewiseBuilder T U}
    {element : ValueOverInterval T U} {p : T}
    (hp : element.interval.containsB p = true) :
    (b.add_overlay element).build.value_at p = some element.value := by
  show ((trimSegs b.values_over_intervals element ++ [element]).find?
    (fun voi => voi.interval.containsB p)).map (fun voi => voi.value) = _
  rw [find?_append_of_none (List.find?_eq_none.mpr ?_), find?_contains_cons_pos hp]
  · rfl
  · intro x hx hpx
    rcases mem_trimSegs.mp hx with ⟨e, _, c, hc, _, rfl⟩
    have h2 := (Interval.containsB_intersect.mp hpx).2
    rw [complement_not_containsB hc h2] at hp
    exact absurd hp (by simp)

/-- Outside the overlaid interval, evaluation is unchanged by the overlay. -/
theorem value_at_overlay_not_mem {U : Type} {b : SmallPiecewiseBuilder T U}
    {element : ValueOverInterval T U} {p : T}
    (hp : element.interval.containsB p = false) :
    (b.add_overlay element).build.value_at p = b.build.value_at p := by
  show ((trimSegs b.values_over_intervals element ++ [element]).find?
    (fun voi => voi.interval.containsB p)).map (fun voi => voi.value) =
    ((b.values_over_intervals.find? (fun voi => voi.interval.containsB p)).map
      (fun voi => voi.value))
  induction b.values_over_intervals with
  | nil =>
    rw [show trimSegs ([] : List (ValueOverInterval T U)) element = [] from rfl]
    simp only [List.nil_append]
    rw [find?_contains_cons_neg hp]
  | cons e L ih =>
    rw [trimSegs_cons, List.append_assoc]
    rcases hce : e.interval.containsB p with _ | _
    · rw [find?_append_of_none (List.find?_eq_none.mpr ?_), ih,
        find?_contains_cons_neg hce]
      intro x hx hpx
      rcases mem_trimSegs.mp hx with ⟨e', he', c, hc, _, rfl⟩
      simp only [List.mem_singleton] at he'
      subst he'
      have h1 := (Interval.containsB_intersect.mp hpx).1
      rw [hce] at h1
      exact absurd h1 (by simp)
    · rcases complement_containsB_of_not hp with ⟨c, hc, hcp⟩
      have hpc : (({ interval := e.interval.intersect c, value := e.value } :
          ValueOverInterval T U)).interval.containsB p = true :=
        Interval.containsB_intersect.mpr ⟨hce, hcp⟩
      have hmem : ({ interval := e.interval.intersect c, value := e.value } :
          ValueOverInterval T U) ∈ trimSegs [e] element :=
        mem_trimSegs.mpr ⟨e, by simp, c, hc,
          Interval.ne_empty_of_containsB hpc, rfl⟩
      have hisSome : ((trimSegs [e] element).find?
          (fun voi => voi.interval.containsB p)).isSome = true :=
        List.find?_isSome.mpr ⟨_, hmem, hpc⟩
      rcases Option.isSome_iff_exists.mp hisSome with ⟨y, hy⟩
      rw [find?_append_of_some hy, find?_contains_cons_pos hce]
      rcases mem_trimSegs.mp (List.mem_of_find?_eq_some hy)
        with ⟨e', he', c', _, _, rfl⟩
      simp only [List.mem_singleton] at he'
      subst he'
      rfl

/-! ### First-match characterization of find? -/

theorem find?_eq_get_of_first {A : Type} (pred : A → Bool) (l : List A) :
    ∀ (i : ℕ) (hi : i < l.length), pred (l.get ⟨i, hi⟩) = true →
    (∀ (j : ℕ) (hj : j < l.length), j < i → pred (l.get ⟨j, hj⟩) = false) →
    l.find? pred = some (l.get ⟨i, hi⟩) := by
  induction l with
  | nil =>
    intro i hi
    exact absurd hi (by simp)
  | cons a tl ih =>
    intro i hi hp hfirst
    rcases i with _ | i
    · exact List.find?_cons_of_pos _ hp
    · have ha : pred a = false := hfirst 0 (Nat.succ_pos _) (Nat.succ_pos i)
      rw [List.find?_cons_of_neg _ (by simp [ha])]
      exact ih i (Nat.lt_of_succ_lt_succ hi) hp
        (fun j hj hji => hfirst (j + 1) (Nat.succ_lt_succ hj) (Nat.succ_lt_succ hji))

theorem find?_some_first {A : Type} (pred : A → Bool) (l : List A) {y : A}
    (h : l.find? pred = some y) :
    ∃ i, ∃ hi : i < l.length, l.get ⟨i, hi⟩ = y ∧
      ∀ (j : ℕ) (hj : j < l.length), j < i → pred (l.get ⟨j, hj⟩) = false := by
  induction l with
  | nil => exact absurd h (by simp)
  | cons a tl ih =>
    rcases hpa : pred a with _ | _
    · rw [List.find?_cons_of_neg _ (by simp [hpa])] at h
      obtain ⟨i, hi, hget, hfirst⟩ := ih h
      refine ⟨i + 1, Nat.succ_lt_succ hi, hget, fun j hj hji => ?_⟩
      rcases j with _ | j
      · exact hpa
      · exact hfirst j (Nat.lt_of_succ_lt_succ hj) (Nat.lt_of_succ_lt_succ hji)
    · rw [List.find?_cons_of_pos _ hpa] at h
      exact ⟨0, Nat.succ_pos _, Option.some_injective _ h,
        fun j hj hji => absurd hji (Nat.not_lt_zero j)⟩

theorem value_at_eq {U : Type} (s : SmallPiecewise T U) (p : T) :
    s.value_at p = (s.values_over_intervals.find?
      (fun voi => voi.interval.containsB p)).map (fun voi => voi.value) := rfl

theorem value_at_of_values_nil {U : Type} {s : SmallPiecewise T U}
    (h : s.values_over_intervals = []) (p : T) : s.value_at p = none := by
  rw [value_at_eq, h]
  rfl

/-! ### The Both branch tie-break -/

theorem bothFirst_of_some_ne_empty {W : Type} {ri li : Option (ValueOverInterval T W)}
    {x : ValueOverInterval T W} (h : ri = some x) (hne : x.interval ≠ .Empty) :
    bothFirst ri li = ri := by
  subst h
  rcases x with ⟨i, v⟩
  rcases i <;> first
    | rfl
    | exact absurd rfl hne

theorem bothFirst_of_some_empty {W : Type} {ri li : Option (ValueOverInterval T W)}
    {x : ValueOverInterval T W} (h : ri = some x) (he : x.interval = .Empty) :
    bothFirst ri li = li := by
  subst h
  rcases x with ⟨i, v⟩
  cases he
  rfl

theorem bothFirst_choice {W : Type} (ri li : Option (ValueOverInterval T W)) :
    bothFirst ri li = ri ∨ bothFirst ri li = li := by
  rcases ri with _ | ⟨⟨i, v⟩⟩
  · exact Or.inr rfl
  · rcases i <;> first
      | exact Or.inr rfl
      | exact Or.inl rfl

/-! ### Multiplication against an empty operand -/

theorem mergeJoinBy_nil_right {A B : Type} (cmp : A → B → Ordering)
    (as_ : List A) : mergeJoinBy cmp as_ ([] : List B) = as_.map .left := by
  induction as_ with
  | nil => rfl
  | cons a t ih =>
    show EitherOrBoth.left a :: mergeJoinBy cmp t [] = _
    rw [ih]
    rfl

theorem mulAux_map_left_none {U V W : Type} [HMul U V W]
    (pl : Option (ValueOverInterval T U)) (as_ : List (ValueOverInterval T U)) :
    ((mulAux (pl, (none : Option (ValueOverInterval T V)))
      (as_.map .left) : List (Option (ValueOverInterval T W)))).filterMap id = [] := by
  induction as_ generalizing pl with
  | nil => rfl
  | cons a t ih =>
    show (([none, none] : List (Option (ValueOverInterval T W))) ++
      mulAux (some a, (none : Option (ValueOverInterval T V))) (t.map .left)).filterMap id = []
    rw [List.filterMap_append, ih (some a)]
    rfl

theorem mulAux_map_right_none {U V W : Type} [HMul U V W]
    (pr : Option (ValueOverInterval T V)) (bs : List (ValueOverInterval T V)) :
    ((mulAux ((none : Option (ValueOverInterval T U)), pr)
      (bs.map .right) : List (Option (ValueOverInterval T W)))).filterMap id = [] := by
  induction bs generalizing pr with
  | nil => rfl
  | cons b t ih =>
    show (([none, none] : List (Option (ValueOverInterval T W))) ++
      mulAux ((none : Option (ValueOverInterval T U)), some b) (t.map .right)).filterMap id = []
    rw [List.filterMap_append, ih (some b)]
    rfl

/-! ### Symbolic disjointness machinery -/

theorem Lower.lmax_comm (a b : Lower T) : a.lmax b = b.lmax a := by
  rcases a with _ | ⟨x, xc⟩
  · rcases b with _ | ⟨y, yc⟩ <;> rfl
  rcases b with _ | ⟨y, yc⟩
  · rfl
  simp only [Lower.lmax]
  rcases lt_trichotomy x y with h | h | h
  · simp [h, not_lt_of_gt h]
  · subst h
    simp [lt_irrefl, Bool.and_comm]
  · simp [h, not_lt_of_gt h]

theorem Upper.umin_comm (a b : Upper T) : a.umin b = b.umin a := by
  rcases a with _ | ⟨x, xc⟩
  · rcases b with _ | ⟨y, yc⟩ <;> rfl
  rcases b with _ | ⟨y, yc⟩
  · rfl
  simp only [Upper.umin]
  rcases lt_trichotomy x y with h | h | h
  · simp [h, not_lt_of_gt h]
  · subst h
    simp [lt_irrefl, Bool.and_comm]
  · simp [h, not_lt_of_gt h]

theorem Interval.intersect_comm (a b : Interval T) :
    a.intersect b = b.intersect a := by
  unfold Interval.intersect
  rcases ha : a.toBounds with _ | ⟨la, ua⟩ <;>
    rcases hb : b.toBounds with _ | ⟨lb, ub⟩
  · rfl
  · rfl
  · rfl
  · show ofBounds (la.lmax lb) (ua.umin ub) = ofBounds (lb.lmax la) (ub.umin ua)
    rw [Lower.lmax_comm, Upper.umin_comm]

theorem intersect_ne_empty_toBounds_some {a b : Interval T}
    (hne : a.intersect b ≠ .Empty) :
    (∃ la ua, a.toBounds = some (la, ua)) ∧
      ∃ lb ub, b.toBounds = some (lb, ub) := by
  unfold Interval.intersect at hne
  rcases ha : a.toBounds with _ | ⟨la, ua⟩ <;>
    rcases hb : b.toBounds with _ | ⟨lb, ub⟩ <;> rw [ha, hb] at hne
  · exact absurd rfl hne
  · exact absurd rfl hne
  · exact absurd rfl hne
  · exact ⟨⟨la, ua, rfl⟩, ⟨lb, ub, rfl⟩⟩

theorem intersect_bounds_of_ne_empty {a b : Interval T} {la lb : Lower T}
    {ua ub : Upper T} (ha : a.toBounds = some (la, ua))
    (hb : b.toBounds = some (lb, ub)) (hne : a.intersect b ≠ .Empty) :
    (a.intersect b).toBounds = some (la.lmax lb, ua.umin ub) := by
  unfold Interval.intersect at hne ⊢
  rw [ha, hb] at hne ⊢
  apply toBounds_ofBounds
  rcases he : emptyBds (la.lmax lb) (ua.umin ub) with _ | _
  · rfl
  · exact absurd (ofBounds_eq_empty_of he) hne

/-- If two intervals lie inside bound pairs whose combination is
symbolically empty, their intersection is the Empty variant. -/
theorem disjoint_of_bounds {x y : Interval T} {lx ly lo1 lo2 : Lower T}
    {ux uy hi1 hi2 : Upper T}
    (hx : x.toBounds = some (lx, ux)) (hl1 : lo1.le lx = true)
    (hu1 : ux.le hi1 = true)
    (hy : y.toBounds = some (ly, uy)) (hl2 : lo2.le ly = true)
    (hu2 : uy.le hi2 = true)
    (h : emptyBds (lo1.lmax lo2) (hi1.umin hi2) = true) :
    x.intersect y = .Empty := by
  unfold Interval.intersect
  rw [hx, hy]
  apply ofBounds_eq_empty_of
  apply emptyBds_mono ?_ ?_ h
  · apply Lower.lmax_le
    · exact Lower.le_trans_lo hl1 (Lower.le_lmax_left lx ly)
    · exact Lower.le_trans_lo hl2 (Lower.le_lmax_right lx ly)
  · apply Upper.le_umin
    · exact Upper.le_trans_up (Upper.umin_le_left ux uy) hu1
    · exact Upper.le_trans_up (Upper.umin_le_right ux uy) hu2

theorem dual_left_joint_empty {xv : T} {xc : Bool} {hi' : Upper T} :
    emptyBds (Lower.bd xv xc) ((Upper.bd xv (!xc)).umin hi') = true :=
  emptyBds_mono (Lower.le_refl_lo _) (Upper.umin_le_left _ _)
    (by rcases xc with _ | _ <;> simp [emptyBds])

theorem dual_right_joint_empty {yv : T} {yc : Bool} {lo : Lower T} :
    emptyBds ((Lower.bd yv (!yc)).lmax lo) (Upper.bd yv yc) = true :=
  emptyBds_mono (Lower.le_lmax_left _ _) (Upper.le_refl_up _)
    (by rcases yc with _ | _ <;> simp [emptyBds])

/-- Pieces trimmed from disjoint source segments stay disjoint. -/
theorem piece_disjoint_source {U : Type} {s : ValueOverInterval T U}
    {e1 e2 x1 x2 : ValueOverInterval T U}
    (h1 : x1 ∈ trimSegs [e1] s) (h2 : x2 ∈ trimSegs [e2] s)
    (hd : e1.interval.intersect e2.interval = .Empty) :
    x1.interval.intersect x2.interval = .Empty := by
  rcases mem_trimSegs.mp h1 with ⟨e1', he1, c1, hc1, hne1, rfl⟩
  simp only [List.mem_singleton] at he1
  subst he1
  rcases mem_trimSegs.mp h2 with ⟨e2', he2, c2, hc2, hne2, rfl⟩
  simp only [List.mem_singleton] at he2
  subst he2
  obtain ⟨⟨le1, ue1, hbe1⟩, ⟨lc1, uc1, hbc1⟩⟩ := intersect_ne_empty_toBounds_some hne1
  obtain ⟨⟨le2, ue2, hbe2⟩, ⟨lc2, uc2, hbc2⟩⟩ := intersect_ne_empty_toBounds_some hne2
  have hx1 := intersect_bounds_of_ne_empty hbe1 hbc1 hne1
  have hx2 := intersect_bounds_of_ne_empty hbe2 hbc2 hne2
  have hemp : emptyBds (le1.lmax le2) (ue1.umin ue2) = true := by
    unfold Interval.intersect at hd
    rw [hbe1, hbe2] at hd
    exact ofBounds_eq_empty_iff.mp hd
  exact disjoint_of_bounds hx1 (Lower.le_lmax_left _ _) (Upper.umin_le_left _ _)
    hx2 (Lower.le_lmax_left _ _) (Upper.umin_le_left _ _) hemp

theorem of_trim_some {U : Type} {e : ValueOverInterval T U} {c : Interval T}
    {x : ValueOverInterval T U}
    (h : (match e.interval.intersect c with
          | .Empty => none
          | inter => some { interval := inter, value := e.value }) = some x) :
    e.interval.intersect c ≠ .Empty ∧ x.interval = e.interval.intersect c := by
  rw [trim_piece_eq] at h
  by_cases hne : e.interval.intersect c = .Empty
  · rw [if_pos hne] at h
    exact absurd h (by simp)
  · rw [if_neg hne] at h
    obtain rfl := Option.some_injective _ h
    exact ⟨hne, rfl⟩

theorem pairwise_filterMap_single {A B : Type} {R : B → B → Prop}
    {f : A → Option B} {c : A} : List.Pairwise R (List.filterMap f [c]) := by
  rcases h : f c with _ | x <;> simp [List.filterMap_cons, h]

theorem pairwise_filterMap_pair {A B : Type} {R : B → B → Prop}
    {f : A → Option B} {c1 c2 : A}
    (h : ∀ x1 x2, f c1 = some x1 → f c2 = some x2 → R x1 x2) :
    List.Pairwise R (List.filterMap f [c1, c2]) := by
  rcases h1 : f c1 with _ | x1 <;> rcases h2 : f c2 with _ | x2 <;>
    simp [List.filterMap_cons, h1, h2]
  exact h _ _ h1 h2

/-- Pieces trimmed from one and the same source segment via distinct
complement pieces of a well-formed interval are disjoint. -/
theorem piece_pair_disjoint {U : Type} {e x1 x2 : ValueOverInterval T U}
    {c1 c2 : Interval T} {lc1 lc2 : Lower T} {uc1 uc2 : Upper T}
    (hx1 : x1.interval = e.interval.intersect c1)
    (hne1 : e.interval.intersect c1 ≠ .Empty)
    (hx2 : x2.interval = e.interval.intersect c2)
    (hne2 : e.interval.intersect c2 ≠ .Empty)
    (hb1 : c1.toBounds = some (lc1, uc1)) (hb2 : c2.toBounds = some (lc2, uc2))
    (hemp : emptyBds (lc1.lmax lc2) (uc1.umin uc2) = true) :
    x1.interval.intersect x2.interval = .Empty := by
  obtain ⟨⟨le', ue', hbe⟩, -⟩ := intersect_ne_empty_toBounds_some hne1
  have h1 := intersect_bounds_of_ne_empty hbe hb1 hne1
  have h2 := intersect_bounds_of_ne_empty hbe hb2 hne2
  rw [hx1, hx2]
  exact disjoint_of_bounds h1 (Lower.le_lmax_right _ _) (Upper.umin_le_right _ _)
    h2 (Lower.le_lmax_right _ _) (Upper.umin_le_right _ _) hemp

theorem trimSegs_single_eq {U : Type} (e s : ValueOverInterval T U) :
    trimSegs [e] s = s.interval.complement.filterMap (fun c =>
      match e.interval.intersect c with
      | .Empty => none
      | inter => some { interval := inter, value := e.value }) := by
  unfold trimSegs
  simp

/-- The pieces trimmed from one segment by one well-formed overlay are
pairwise disjoint. -/
theorem trimSegs_single_pairwise {U : Type} {e s : ValueOverInterval T U}
    (hwf : s.interval.WF) :
    (trimSegs [e] s).Pairwise
      (fun a b => a.interval.intersect b.interval = .Empty) := by
  rw [trimSegs_single_eq]
  rcases s with ⟨si, sv⟩
  rcases si with _ | a | ⟨l, r⟩ | ⟨l, r⟩ | ⟨l, r⟩ | ⟨l, r⟩ | r | r | l | l
  · exact pairwise_filterMap_single
  · show List.Pairwise _ (List.filterMap _ [Interval.UnboundedOpenRight a, Interval.UnboundedOpenLeft a])
    apply pairwise_filterMap_pair
    intro x1 x2 hf1 hf2
    obtain ⟨hne1, hx1⟩ := of_trim_some hf1
    obtain ⟨hne2, hx2⟩ := of_trim_some hf2
    exact piece_pair_disjoint hx1 hne1 hx2 hne2 rfl rfl (by simp [emptyBds, Lower.lmax, Upper.umin])
  · show List.Pairwise _ (List.filterMap _ [Interval.UnboundedOpenRight l, Interval.UnboundedOpenLeft r])
    have hlr : l < r := hwf
    apply pairwise_filterMap_pair
    intro x1 x2 hf1 hf2
    obtain ⟨hne1, hx1⟩ := of_trim_some hf1
    obtain ⟨hne2, hx2⟩ := of_trim_some hf2
    exact piece_pair_disjoint hx1 hne1 hx2 hne2 rfl rfl (by simp [emptyBds, Lower.lmax, Upper.umin, hlr])
  · show List.Pairwise _ (List.filterMap _ [Interval.UnboundedClosedRight l, Interval.UnboundedClosedLeft r])
    have hlr : l < r := hwf
    apply pairwise_filterMap_pair
    intro x1 x2 hf1 hf2
    obtain ⟨hne1, hx1⟩ := of_trim_some hf1
    obtain ⟨hne2, hx2⟩ := of_trim_some hf2
    exact piece_pair_disjoint hx1 hne1 hx2 hne2 rfl rfl (by simp [emptyBds, Lower.lmax, Upper.umin, hlr])
  · show List.Pairwise _ (List.filterMap _ [Interval.UnboundedClosedRight l, Interval.UnboundedOpenLeft r])
    have hlr : l < r := hwf
    apply pairwise_filterMap_pair
    intro x1 x2 hf1 hf2
    obtain ⟨hne1, hx1⟩ := of_trim_some hf1
    obtain ⟨hne2, hx2⟩ := of_trim_some hf2
    exact piece_pair_disjoint hx1 hne1 hx2 hne2 rfl rfl (by simp [emptyBds, Lower.lmax, Upper.umin, hlr])
  · show List.Pairwise _ (List.filterMap _ [Interval.UnboundedOpenRight l, Interval.UnboundedClosedLeft r])
    have hlr : l < r := hwf
    apply pairwise_filterMap_pair
    intro x1 x2 hf1 hf2
    obtain ⟨hne1, hx1⟩ := of_trim_some hf1
    obtain ⟨hne2, hx2⟩ := of_trim_some hf2
    exact piece_pair_disjoint hx1 hne1 hx2 hne2 rfl rfl (by simp [emptyBds, Lower.lmax, Upper.umin, hlr])
  · exact pairwise_filterMap_single
  · exact pairwise_filterMap_single
  · exact pairwise_filterMap_single
  · exact pairwise_filterMap_single
  · show List.Pairwise _ (List.filterMap _ [])
    exact List.Pairwise.nil

/-- Trimming a pairwise-disjoint list by a well-formed overlay keeps the
pieces pairwise disjoint. -/
theorem trimSegs_pairwise {U : Type} {L : List (ValueOverInterval T U)}
    {s : ValueOverInterval T U}
    (hL : L.Pairwise (fun a b => a.interval.intersect b.interval = .Empty))
    (hwf : s.interval.WF) :
    (trimSegs L s).Pairwise
      (fun a b => a.interval.intersect b.interval = .Empty) := by
  induction L with
  | nil => exact List.Pairwise.nil
  | cons e L ih =>
    rw [trimSegs_cons]
    rcases List.pairwise_cons.mp hL with ⟨hde, hL2⟩
    refine List.pairwise_append.mpr
      ⟨trimSegs_single_pairwise hwf, ih hL2, ?_⟩
    intro x1 h1 x2 h2
    rcases mem_trimSegs.mp h2 with ⟨e2, he2, c, hc, hne, rfl⟩
    have h2s : ({ interval := e2.interval.intersect c, value := e2.value } :
        ValueOverInterval T U) ∈ trimSegs [e2] s :=
      mem_trimSegs.mpr ⟨e2, by simp, c, hc, hne, rfl⟩
    exact piece_disjoint_source h1 h2s (hde e2 he2)

theorem intersect_empty_right {a b : Interval T} (hb : b.toBounds = none) :
    a.intersect b = .Empty := by
  unfold Interval.intersect
  rw [hb]
  rcases ha : a.toBounds with _ | ⟨la, ua⟩ <;> rfl

/-- Every trimmed piece is disjoint (at the variant level) from the newly
overlaid segment. -/
theorem trimSegs_disjoint_element {U : Type} {L : List (ValueOverInterval T U)}
    {s : ValueOverInterval T U} :
    ∀ x ∈ trimSegs L s, x.interval.intersect s.interval = .Empty := by
  intro x hx
  rcases mem_trimSegs.mp hx with ⟨e, _, c, hc, hne, rfl⟩
  rcases hs : s.interval.toBounds with _ | ⟨lo, hi'⟩
  · exact intersect_empty_right hs
  · rcases mem_complement hc with ⟨hn, -⟩ | ⟨lo2, hi2, hsome, hcase⟩
    · rw [hn] at hs
      cases hs
    · have hlh : lo2 = lo ∧ hi2 = hi' := by
        rw [hsome] at hs
        injection hs with h12
        injection h12 with ha hb
        exact ⟨ha, hb⟩
      obtain ⟨rfl, rfl⟩ := hlh
      obtain ⟨⟨le', ue', hbe⟩, ⟨lc', uc', hbc⟩⟩ :=
        intersect_ne_empty_toBounds_some hne
      have h1 := intersect_bounds_of_ne_empty hbe hbc hne
      rcases hcase with ⟨xv, xc, rfl, hct⟩ | ⟨yv, yc, rfl, hct⟩
      · have hcb : lc' = Lower.ninf ∧ uc' = Upper.bd xv (!xc) := by
          rw [hct] at hbc
          injection hbc with h12
          injection h12 with ha hb
          exact ⟨ha.symm, hb.symm⟩
        obtain ⟨rfl, rfl⟩ := hcb
        exact disjoint_of_bounds h1 (Lower.le_lmax_right _ _)
          (Upper.umin_le_right _ _) hs (Lower.le_refl_lo _) (Upper.le_refl_up _)
          dual_left_joint_empty
      · have hcb : lc' = Lower.bd yv (!yc) ∧ uc' = Upper.pinf := by
          rw [hct] at hbc
          injection hbc with h12
          injection h12 with ha hb
          exact ⟨ha.symm, hb.symm⟩
        obtain ⟨rfl, rfl⟩ := hcb
        exact disjoint_of_bounds h1 (Lower.le_lmax_right _ _)
          (Upper.umin_le_right _ _) hs (Lower.le_refl_lo _) (Upper.le_refl_up _)
          dual_right_joint_empty

/-- One overlay of a well-formed segment preserves pairwise disjointness of
the builder's stored segments. -/
theorem overlay_preserves_pairwise {U : Type} {b : SmallPiecewiseBuilder T U}
    {s : ValueOverInterval T U}
    (h : b.values_over_intervals.Pairwise
      (fun a b => a.interval.intersect b.interval = .Empty))
    (hwf : s.interval.WF) :
    (b.add_overlay s).values_over_intervals.Pairwise
      (fun a b => a.interval.intersect b.interval = .Empty) := by
  rw [add_overlay_eq_trimSegs]
  refine List.pairwise_append.mpr
    ⟨trimSegs_pairwise h hwf, List.pairwise_singleton _ _, ?_⟩
  intro x hx y hy
  simp only [List.mem_singleton] at hy
  subst hy
  exact trimSegs_disjoint_element x hx

theorem foldl_overlay_pairwise {U : Type} (ss : List (ValueOverInterval T U)) :
    ∀ (b : SmallPiecewiseBuilder T U),
      b.values_over_intervals.Pairwise
        (fun a b => a.interval.intersect b.interval = .Empty) →
      (∀ s ∈ ss, s.interval.WF) →
      (ss.foldl SmallPiecewiseBuilder.add_overlay b).values_over_intervals.Pairwise
        (fun a b => a.interval.intersect b.interval = .Empty) := by
  induction ss with
  | nil => exact fun b hb _ => hb
  | cons s ss ih =>
    intro b hb hwf
    exact ih _ (overlay_preserves_pairwise hb (hwf s (by simp)))
      (fun t ht => hwf t (by simp [ht]))

/-! ## Claim theorems -/

/-- C9: multiplying a segment by a factor yields a new segment with an
identical interval and the value multiplied by the factor; the original
segment is unchanged (value semantics — the input is immutable). -/
theorem claim9_segment_scaling {U V : Type} [HMul U V U]
    (s : ValueOverInterval T U) (k : V) :
    (s.mulV k).interval = s.interval ∧ (s.mulV k).value = s.value * k :=
  ⟨rfl, rfl⟩

/-- C4: newest wins — after overlaying A and then B, every point of
A.interval ∩ B.interval evaluates to B's value on the built function. -/
theorem claim4_newest_wins {U : Type} (b : SmallPiecewiseBuilder T U)
    (A B : ValueOverInterval T U) (p : T)
    (hp : (A.interval.intersect B.interval).containsB p = true) :
    (((b.add_overlay A).add_overlay B).build).value_at p = some B.value :=
  value_at_overlay_mem (Interval.containsB_intersect.mp hp).2

/-- Witness for C4 at a concrete overlap point. -/
theorem claim4_newest_wins_witness :
    ((((SmallPiecewiseBuilder.new ℤ ℤ).add_overlay ⟨.Closed 0 10, 1⟩).add_overlay
      ⟨.Closed 5 20, 2⟩).build).value_at 7 = some 2 :=
  claim4_newest_wins _ _ _ _ (by decide)

/-- C6: overlay idempotence — overlaying the same segment twice produces a
step function pointwise equal to overlaying it once. -/
theorem claim6_overlay_idempotent {U : Type} (b : SmallPiecewiseBuilder T U)
    (s : ValueOverInterval T U) (p : T) :
    (((b.add_overlay s).add_overlay s).build).value_at p =
      ((b.add_overlay s).build).value_at p := by
  rcases hp : s.interval.containsB p with _ | _
  · exact value_at_overlay_not_mem hp
  · rw [value_at_overlay_mem hp, value_at_overlay_mem hp]

/-- C8: value_at scans the stored segments in order and returns the value of
the first segment containing the point; when none contains it the result is
the explicit absent value None — a normal outcome, not an error. -/
theorem claim8_value_at_semantics {U : Type} (s : SmallPiecewise T U) (p : T) :
    (s.value_at p = none ↔
      ∀ v ∈ s.values_over_intervals, v.interval.containsB p = false) ∧
    (∀ (i : ℕ) (hi : i < s.values_over_intervals.length),
      (s.values_over_intervals.get ⟨i, hi⟩).interval.containsB p = true →
      (∀ (j : ℕ) (hj : j < s.values_over_intervals.length), j < i →
        (s.values_over_intervals.get ⟨j, hj⟩).interval.containsB p = false) →
      s.value_at p = some (s.values_over_intervals.get ⟨i, hi⟩).value) := by
  constructor
  · rw [value_at_eq]
    constructor
    · intro h v hv
      rcases hf : s.values_over_intervals.find?
          (fun voi => voi.interval.containsB p) with _ | y
      · have := List.find?_eq_none.mp hf v hv
        simpa using this
      · rw [hf] at h
        exact absurd h (by simp)
    · intro h
      rw [List.find?_eq_none.mpr (fun x hx => by simp [h x hx])]
      rfl
  · intro i hi h1 h2
    rw [value_at_eq,
      @find?_eq_get_of_first _ (fun voi => voi.interval.containsB p) _ i hi h1 h2]
    rfl

/-- Witness for C8: the first containing segment in storage order wins. -/
theorem claim8_value_at_semantics_witness :
    (SmallPiecewise.ofList [⟨.Closed 0 10, (5:ℤ)⟩, ⟨.Closed 5 20, 7⟩] :
      SmallPiecewise ℤ ℤ).value_at 6 = some 5 :=
  (claim8_value_at_semantics _ 6).2 0 (by decide) (by decide)
    (fun j _ hj0 => absurd hj0 (Nat.not_lt_zero j))

theorem ofList_values {U : Type} (l : List (ValueOverInterval T U)) :
    (SmallPiecewise.ofList l).values_over_intervals = l := rfl

/-- C10: FromIterator stores the caller's sequence exactly as given (no
sorting, filtering, or validation), and value_at on that raw sequence is
total and deterministic: either None with no segment containing the point,
or the value of the earliest containing segment in input order. -/
theorem claim10_from_iter_raw {U : Type} (l : List (ValueOverInterval T U))
    (p : T) :
    (SmallPiecewise.ofList l).values_over_intervals = l ∧
    (((SmallPiecewise.ofList l).value_at p = none ∧
        ∀ v ∈ l, v.interval.containsB p = false) ∨
      ∃ i, ∃ hi : i < l.length,
        (SmallPiecewise.ofList l).value_at p = some (l.get ⟨i, hi⟩).value ∧
        (l.get ⟨i, hi⟩).interval.containsB p = true ∧
        ∀ (j : ℕ) (hj : j < l.length), j < i →
          (l.get ⟨j, hj⟩).interval.containsB p = false) := by
  refine ⟨rfl, ?_⟩
  rcases hf : l.find? (fun voi => voi.interval.containsB p) with _ | y
  · refine Or.inl ⟨?_, fun v hv => ?_⟩
    · rw [value_at_eq, ofList_values, hf]
      rfl
    · have := List.find?_eq_none.mp hf v hv
      simpa using this
  · obtain ⟨i, hi, hget, hfirst⟩ := find?_some_first _ _ hf
    refine Or.inr ⟨i, hi, ?_, ?_, hfirst⟩
    · rw [value_at_eq, ofList_values, hf, hget]
      rfl
    · rw [hget]
      exact @List.find?_some _ (fun voi => voi.interval.containsB p) y l hf

/-- Witness for C10: an unsorted, overlapping input is stored verbatim and
the earliest containing segment decides the value. -/
theorem claim10_from_iter_raw_witness :
    (SmallPiecewise.ofList [⟨.Closed 5 20, (7:ℤ)⟩, ⟨.Closed 0 10, 5⟩] :
      SmallPiecewise ℤ ℤ).values_over_intervals =
      [⟨.Closed 5 20, 7⟩, ⟨.Closed 0 10, 5⟩] :=
  (claim10_from_iter_raw [⟨.Closed 5 20, (7:ℤ)⟩, ⟨.Closed 0 10, 5⟩] 6).1

/-- C2: add_overlay replaces the stored list by exactly the non-Empty
intersections of each existing segment with each complement piece of the
new segment's interval (outer loop over existing segments in stored order,
inner loop over complement pieces), keeping the existing values, and then
appends the new segment as the final element. -/
theorem claim2_overlay_algorithm {U : Type} (b : SmallPiecewiseBuilder T U)
    (s : ValueOverInterval T U) :
    (b.add_overlay s).values_over_intervals =
      ((b.values_over_intervals ×ˢ s.interval.complement).filterMap
        (fun ec =>
          if ec.1.interval.intersect ec.2 = .Empty then none
          else some { interval := ec.1.interval.intersect ec.2,
                      value := ec.1.value })) ++ [s] := by
  rw [add_overlay_eq_trimSegs]
  congr 1
  unfold trimSegs
  induction b.values_over_intervals with
  | nil => rw [List.nil_product]; rfl
  | cons e L ih =>
    rw [List.flatMap_cons, List.product_cons, List.filterMap_append, ih,
      List.filterMap_map]
    have hfun : (fun complement_interval : Interval T =>
        (match e.interval.intersect complement_interval with
         | Interval.Empty => none
         | inter => some { interval := inter, value := e.value } :
          Option (ValueOverInterval T U))) =
      (((fun ec => if ec.1.interval.intersect ec.2 = Interval.Empty then none
          else some { interval := ec.1.interval.intersect ec.2,
                      value := ec.1.value }) :
        ValueOverInterval T U × Interval T → Option (ValueOverInterval T U)) ∘
        fun c : Interval T => (e, c)) := by
      funext c
      rw [trim_piece_eq e c]
      rfl
    rw [hfun]

/-- C7: multiplying by an empty-segment step function on either side yields
an empty-segment step function, whose value_at is None at every point. -/
theorem claim7_empty_absorbs {U V W : Type} [HMul U V W]
    (F : SmallPiecewise T U) (G : SmallPiecewise T V) :
    (G.values_over_intervals = [] →
      (F.mul G : SmallPiecewise T W).values_over_intervals = [] ∧
      ∀ p : T, (F.mul G : SmallPiecewise T W).value_at p = none) ∧
    (F.values_over_intervals = [] →
      (F.mul G : SmallPiecewise T W).values_over_intervals = [] ∧
      ∀ p : T, (F.mul G : SmallPiecewise T W).value_at p = none) := by
  constructor
  · intro hG
    have hv : (F.mul G : SmallPiecewise T W).values_over_intervals = [] := by
      show ((mulAux (none, none) (mergeJoinBy (fun a b =>
          match a.interval.rightPartialCmp b.interval with
          | some cmp => cmp
          | none => .lt) F.values_over_intervals G.values_over_intervals) :
        List (Option (ValueOverInterval T W)))).filterMap id = []
      rw [hG, mergeJoinBy_nil_right]
      exact mulAux_map_left_none none _
    exact ⟨hv, value_at_of_values_nil hv⟩
  · intro hF
    have hv : (F.mul G : SmallPiecewise T W).values_over_intervals = [] := by
      show ((mulAux (none, none) (mergeJoinBy (fun a b =>
          match a.interval.rightPartialCmp b.interval with
          | some cmp => cmp
          | none => .lt) F.values_over_intervals G.values_over_intervals) :
        List (Option (ValueOverInterval T W)))).filterMap id = []
      rw [hF]
      exact mulAux_map_right_none none _
    exact ⟨hv, value_at_of_values_nil hv⟩

/-- Witness for C7 at a concrete step function and point. -/
theorem claim7_empty_absorbs_witness :
    ((SmallPiecewise.ofList [⟨.Closed 0 10, (3:ℤ)⟩] : SmallPiecewise ℤ ℤ).mul
      (SmallPiecewise.ofList ([] : List (ValueOverInterval ℤ ℤ)))
        : SmallPiecewise ℤ ℤ).values_over_intervals = [] ∧
    ((SmallPiecewise.ofList [⟨.Closed 0 10, (3:ℤ)⟩] : SmallPiecewise ℤ ℤ).mul
      (SmallPiecewise.ofList ([] : List (ValueOverInterval ℤ ℤ)))
        : SmallPiecewise ℤ ℤ).value_at 5 = none := by
  have h := (claim7_empty_absorbs
    (SmallPiecewise.ofList [⟨.Closed 0 10, (3:ℤ)⟩] : SmallPiecewise ℤ ℤ)
    (SmallPiecewise.ofList ([] : List (ValueOverInterval ℤ ℤ)))).1 rfl
  exact ⟨h.1, h.2 5⟩

/-- The right-induced candidate of a Both merge step: pending-left against
the new right segment (present only when a pending-left exists). -/
def rightInduced {U V W : Type} [HMul U V W]
    (pl : Option (ValueOverInterval T U)) (nr : ValueOverInterval T V) :
    Option (ValueOverInterval T W) :=
  pl.map (fun left =>
    { interval := left.interval.intersect nr.interval,
      value := left.value * nr.value })

/-- The left-induced candidate of a Both merge step: the new left segment
against pending-right (present only when a pending-right exists). -/
def leftInduced {U V W : Type} [HMul U V W]
    (pr : Option (ValueOverInterval T V)) (nl : ValueOverInterval T U) :
    Option (ValueOverInterval T W) :=
  pr.map (fun right =>
    { interval := nl.interval.intersect right.interval,
      value := nl.value * right.value })

/-- C5: in every Both merge step, only one slot besides the mandatory
aligned-overlap candidate is emitted — the right-induced candidate when it
exists with a non-Empty interval, otherwise the left-induced candidate when
it exists, never both — and the aligned candidate new_left ∩ new_right with
the product value is always additionally emitted. -/
theorem claim5_tie_break {U V W : Type} [HMul U V W]
    (pl : Option (ValueOverInterval T U)) (pr : Option (ValueOverInterval T V))
    (nl : ValueOverInterval T U) (nr : ValueOverInterval T V) :
    ∃ first : Option (ValueOverInterval T W),
      (mulStep (pl, pr) (.both nl nr)).1 =
        [first, some { interval := nl.interval.intersect nr.interval,
                       value := nl.value * nr.value }] ∧
      (∀ x, rightInduced pl nr = some x → x.interval ≠ .Empty →
        first = rightInduced pl nr) ∧
      ((rightInduced pl nr = (none : Option (ValueOverInterval T W)) ∨
        (∃ x, rightInduced pl nr = some x ∧ x.interval = .Empty)) →
        first = leftInduced pr nl) ∧
      (first = rightInduced pl nr ∨ first = leftInduced pr nl) := by
  refine ⟨bothFirst (rightInduced pl nr) (leftInduced pr nl), rfl, ?_, ?_, ?_⟩
  · intro x hx hne
    exact bothFirst_of_some_ne_empty hx hne
  · rintro (h | ⟨x, hx, he⟩)
    · rw [h]
      rfl
    · exact bothFirst_of_some_empty hx he
  · exact bothFirst_choice _ _

/-- Witness for C5: a Both step with a live right-induced candidate. -/
theorem claim5_tie_break_witness :
    (mulStep ((some ⟨.Closed 0 10, (2:ℤ)⟩ : Option (ValueOverInterval ℤ ℤ)),
      (some ⟨.Closed 0 10, (3:ℤ)⟩ : Option (ValueOverInterval ℤ ℤ)))
      (.both (⟨.Closed 5 20, 4⟩ : ValueOverInterval ℤ ℤ)
        (⟨.Closed 5 20, 6⟩ : ValueOverInterval ℤ ℤ))).1 =
      [some ⟨.Closed 5 10, 12⟩, some ⟨.Closed 5 20, 24⟩] := by
  obtain ⟨first, h1, h2, -, -⟩ := claim5_tie_break
    (some ⟨.Closed 0 10, (2:ℤ)⟩ : Option (ValueOverInterval ℤ ℤ))
    (some ⟨.Closed 0 10, (3:ℤ)⟩ : Option (ValueOverInterval ℤ ℤ))
    (⟨.Closed 5 20, 4⟩ : ValueOverInterval ℤ ℤ)
    (⟨.Closed 5 20, 6⟩ : ValueOverInterval ℤ ℤ)
  rw [h1, h2 _ rfl (by decide)]
  decide

/-- C1 (code-bug evidence): with builder-produced, sorted, pairwise-disjoint
inputs L = {(-∞,100) ↦ 1} and R = {[0,10] ↦ 1, [20,30] ↦ 1}, both factors
are defined at the point 5 yet the product is undefined there — the merge
keeps only one pending segment per side, so the product piece over [0,10]
is never emitted. -/
theorem claim1_mul_counterexample :
    ((((SmallPiecewiseBuilder.new ℤ ℤ).add_overlay
        ⟨.Closed 0 10, 1⟩).add_overlay
        ⟨.Closed 20 30, 1⟩).build).values_over_intervals =
      [⟨.Closed 0 10, 1⟩, ⟨.Closed 20 30, 1⟩] ∧
    (((SmallPiecewiseBuilder.new ℤ ℤ).add_overlay
        ⟨.UnboundedOpenRight 100, 1⟩).build).value_at 5 = some 1 ∧
    ((((SmallPiecewiseBuilder.new ℤ ℤ).add_overlay
        ⟨.Closed 0 10, 1⟩).add_overlay
        ⟨.Closed 20 30, 1⟩).build).value_at 5 = some 1 ∧
    ((((SmallPiecewiseBuilder.new ℤ ℤ).add_overlay
        ⟨.UnboundedOpenRight 100, 1⟩).build).mul
      ((((SmallPiecewiseBuilder.new ℤ ℤ).add_overlay
        ⟨.Closed 0 10, 1⟩).add_overlay
        ⟨.Closed 20 30, 1⟩).build)).value_at 5 = none := by
  decide

/-- C3: starting from an empty builder, after any sequence of well-formed
overlays the stored segments are pairwise disjoint (either-order
intersection of two distinct stored intervals is the Empty variant), and
build transfers the list unchanged so the built function satisfies the same
invariant. -/
theorem claim3_disjoint_invariant {U : Type} (ss : List (ValueOverInterval T U))
    (hwf : ∀ s ∈ ss, s.interval.WF) :
    (∀ b : SmallPiecewiseBuilder T U,
      b.build.values_over_intervals = b.values_over_intervals) ∧
    ((ss.foldl SmallPiecewiseBuilder.add_overlay
        (SmallPiecewiseBuilder.new T U)).build).values_over_intervals.Pairwise
      (fun a b => a.interval.intersect b.interval = .Empty ∧
        b.interval.intersect a.interval = .Empty) := by
  refine ⟨fun b => rfl, ?_⟩
  have h := foldl_overlay_pairwise ss (SmallPiecewiseBuilder.new T U)
    List.Pairwise.nil hwf
  exact h.imp (fun hab => ⟨hab, by rw [Interval.intersect_comm]; exact hab⟩)

/-- Witness for C3 on the repository's own three-overlay example. -/
theorem claim3_disjoint_invariant_witness :
    (([⟨.Unbounded, 5⟩, ⟨.UnboundedClosedLeft 230, 2⟩,
        ⟨.UnboundedOpenRight 200, 1⟩] :
      List (ValueOverInterval ℤ ℤ)).foldl SmallPiecewiseBuilder.add_overlay
      (SmallPiecewiseBuilder.new ℤ ℤ)).build.values_over_intervals.Pairwise
      (fun a b => a.interval.intersect b.interval = .Empty ∧
        b.interval.intersect a.interval = .Empty) :=
  (claim3_disjoint_invariant
    [⟨.Unbounded, 5⟩, ⟨.UnboundedClosedLeft 230, 2⟩,
      ⟨.UnboundedOpenRight 200, 1⟩]
    (by intro s hs; fin_cases hs <;> exact trivial)).2

end Piecewise
